import Mathlib

/-!
Verification of the entry/tag state-management core of the gourmet journal
application. The definitions below are a shallow embedding of the handlers in
the repository sources: the App component (handleAddTag, handleDeleteTag,
handleRenameTag, handleSaveEntry, the useState initializers, INITIAL_ENTRIES
and DEFAULT_TAGS) and the HomeView component (confirmDeleteTag,
executeMoveCards, executeDeleteCards, handleDragEnd, handleTagDragEnd) plus
the AddEntryView image upload handler (handleImageUpload). Ratings are JS
numbers with one decimal digit (for example 4.8); they are represented here
in tenths as a Nat, which is exact for every rating the program produces.
-/

namespace Gourmet

/-- Embedding of the JS String.prototype.trim used by the handlers: drop
whitespace from both ends of the string. -/
def jsTrim (s : String) : String :=
  String.mk (((s.data.dropWhile Char.isWhitespace).reverse.dropWhile
    Char.isWhitespace).reverse)

/-- WeatherInfo from types.ts: temperature, condition label, WMO code and an
optional cached location name. -/
structure WeatherInfo where
  temperature : Int
  condition : String
  code : Nat
  locationName : Option String := none
deriving Repr, DecidableEq

/-- FoodEntry from types.ts (the multi-image revision): id, title, location,
date, ordered image list, cover image index, tag list, rating (stored in
tenths), description and optional weather. -/
structure FoodEntry where
  id : String
  title : String
  location : String
  date : String
  images : List String
  coverImageIndex : Nat
  tags : List String
  ratingTenths : Nat
  description : String
  weather : Option WeatherInfo := none
deriving Repr, DecidableEq

/-- Combined state owned by the App component (entries, tags) together with
the HomeView activeCategory filter, which the delete cascade resets. -/
structure AppState where
  entries : List FoodEntry
  tags : List String
  activeCategory : String
deriving Repr, DecidableEq

/-- INITIAL_ENTRIES mock data from the App component. -/
def INITIAL_ENTRIES : List FoodEntry :=
  [ { id := "1", title := "宇治抹茶舒芙蕾", location := "京都茶寮",
      date := "10月12日",
      images := ["https://picsum.photos/id/431/800/1000",
                 "https://picsum.photos/id/432/800/1000"],
      coverImageIndex := 0, tags := ["早餐", "漂亮饭"], ratingTenths := 48,
      description := "如云朵般蓬松的口感，散发着浓郁的抹茶香气。",
      weather := some { temperature := 22, condition := "晴朗", code := 0,
                        locationName := some "京都" } },
    { id := "2", title := "手工酸种吐司", location := "晨间面包房",
      date := "10月10日",
      images := ["https://picsum.photos/id/1080/800/1000"],
      coverImageIndex := 0, tags := ["早餐", "大吃特吃"], ratingTenths := 45,
      description := "本地采购的牛油果配上水波蛋和少许辣椒碎。",
      weather := some { temperature := 18, condition := "多云", code := 1,
                        locationName := some "上海" } },
    { id := "3", title := "主厨特选寿司", location := "禅 · 寿司",
      date := "10月08日",
      images := ["https://picsum.photos/id/225/800/1000",
                 "https://picsum.photos/id/226/800/1000",
                 "https://picsum.photos/id/227/800/1000"],
      coverImageIndex := 0, tags := ["大吃特吃"], ratingTenths := 50,
      description := "一场十二道时令鱼生的味觉之旅。",
      weather := some { temperature := 15, condition := "下雨", code := 61,
                        locationName := some "东京" } },
    { id := "4", title := "深夜关东煮", location := "便利店",
      date := "10月05日",
      images := ["https://picsum.photos/id/1060/800/1000"],
      coverImageIndex := 0, tags := ["超市", "小吃小喝"], ratingTenths := 42,
      description := "温暖的萝卜和魔芋丝。",
      weather := some { temperature := 10, condition := "晴朗", code := 0,
                        locationName := some "北京" } } ]

/-- DEFAULT_TAGS from the App component. -/
def DEFAULT_TAGS : List String := ["早餐", "漂亮饭", "大吃特吃", "小吃小喝", "超市"]

/-- Startup read of the entries blob. The outer Option is the localStorage
getItem result (none = key absent), the inner Option is the JSON.parse
outcome (none = the parse threw and the catch branch ran). -/
def loadEntries : Option (Option (List FoodEntry)) → List FoodEntry
  | none => INITIAL_ENTRIES
  | some none => INITIAL_ENTRIES
  | some (some es) => es

/-- Startup read of the tags blob, with the same Option layering as
loadEntries. -/
def loadTags : Option (Option (List String)) → List String
  | none => DEFAULT_TAGS
  | some none => DEFAULT_TAGS
  | some (some ts) => ts

/-- Initial state when nothing usable is persisted: the mock entries, the
default tags, and the unfiltered category (the HomeView useState initial
value is the string for the All view). -/
def initialState : AppState :=
  { entries := INITIAL_ENTRIES, tags := DEFAULT_TAGS, activeCategory := "全部" }

/-- handleAddTag from the App component: ignore names that trim to empty,
otherwise append the trimmed name to the registry when it is not already
present. -/
def handleAddTag (tags : List String) (newTag : String) : List String :=
  if jsTrim newTag = "" then tags
  else if tags.contains (jsTrim newTag) then tags
  else tags ++ [jsTrim newTag]

/-- handleDeleteTag from the App component: filter the name out of the
registry order. -/
def handleDeleteTag (tags : List String) (tagToDelete : String) : List String :=
  tags.filter (fun t => t ≠ tagToDelete)

/-- handleRenameTag from the App component. The guard compares the raw old
and new names (the falsy check rejects empty strings, the equality check runs
before the new name is trimmed). In the merge case the old name is filtered
out of the registry; otherwise it is replaced in place by the trimmed new
name. Each entry holding the old name drops it when it already holds the
trimmed new name and otherwise maps it to the trimmed new name. -/
def handleRenameTag (s : AppState) (oldTag newTag : String) : AppState :=
  if oldTag = "" ∨ newTag = "" ∨ oldTag = newTag then s
  else
    let trimmedNewTag := jsTrim newTag
    let tags2 :=
      if s.tags.contains trimmedNewTag then
        s.tags.filter (fun t => t ≠ oldTag)
      else
        s.tags.map (fun t => if t = oldTag then trimmedNewTag else t)
    let entries2 := s.entries.map (fun e =>
      if e.tags.contains oldTag then
        if e.tags.contains trimmedNewTag then
          { e with tags := e.tags.filter (fun t => t ≠ oldTag) }
        else
          { e with tags := e.tags.map (fun t => if t = oldTag then trimmedNewTag else t) }
      else e)
    { s with entries := entries2, tags := tags2 }

/-- One step of the forEach in handleSaveEntry: handleAddTag called with the
registry value captured by the React closure (the stale pre-save registry),
while the functional setTags updates accumulate in acc. -/
def addTagStale (stale acc : List String) (newTag : String) : List String :=
  if jsTrim newTag = "" then acc
  else if stale.contains (jsTrim newTag) then acc
  else acc ++ [jsTrim newTag]

/-- handleSaveEntry from the App component: replace the entry with matching
id in place when one exists, otherwise insert at the head; then run
handleAddTag over the saved entry tags (each call checks membership against
the pre-save registry captured by the closure while the appends accumulate). -/
def handleSaveEntry (s : AppState) (entry : FoodEntry) : AppState :=
  let entries2 :=
    if s.entries.any (fun e => e.id = entry.id) then
      s.entries.map (fun e => if e.id = entry.id then entry else e)
    else
      entry :: s.entries
  let tags2 := entry.tags.foldl (addTagStale s.tags) s.tags
  { s with entries := entries2, tags := tags2 }

/-- Deletion mode chosen in the confirmDeleteTag dialog of HomeView. -/
inductive DeleteTagMode where
  | tag_only
  | tag_all
deriving Repr, DecidableEq

/-- confirmDeleteTag from HomeView. The tagToDelete dialog state is passed as
an argument; the falsy guard on it is the empty-string check. In tag_only
mode the tag is filtered out of every entry tag list and out of the registry;
in tag_all mode every entry holding the tag is deleted and the tag is removed
from the registry. Either way, when the deleted tag was the active category
the filter resets to the All view. -/
def confirmDeleteTag (s : AppState) (tagToDelete : String)
    (mode : DeleteTagMode) : AppState :=
  if tagToDelete = "" then s
  else
    let entries2 :=
      match mode with
      | DeleteTagMode.tag_only =>
          s.entries.map (fun e => { e with tags := e.tags.filter (fun t => t ≠ tagToDelete) })
      | DeleteTagMode.tag_all =>
          s.entries.filter (fun e => ¬ e.tags.contains tagToDelete)
    let tags2 := handleDeleteTag s.tags tagToDelete
    let active2 := if s.activeCategory = tagToDelete then "全部" else s.activeCategory
    { entries := entries2, tags := tags2, activeCategory := active2 }

/-- Embedding of the JS Array.prototype.splice insertion used by arrayMove:
insert the element before position n, appending at the end when n is past the
end of the list. -/
def insertAt : Nat → α → List α → List α
  | 0, a, l => a :: l
  | _ + 1, a, [] => [a]
  | n + 1, a, x :: xs => x :: insertAt n a xs

/-- Modelled from the spec: arrayMove is imported from the external
dnd-kit sortable package and its body is not part of the repository sources.
Per the Drag-Reorder Controller contract it removes the element at the source
index and reinserts it at the target index; an out-of-range source index
leaves the order unchanged (the handlers only call it with indices produced
by a successful findIndex, so the source index is always in range there). -/
def arrayMove (l : List α) (src tgt : Nat) : List α :=
  match l[src]? with
  | some x => insertAt tgt x (l.eraseIdx src)
  | none => l

/-- handleDragEnd from HomeView, for entry cards. The over argument is the
droppable under the pointer (none when the card was dropped outside any
droppable). The result is some when onEntriesUpdate runs (an entries mutation
followed by a persistence write) and none when the handler makes no mutation
and no write. The guard requires a drop target with an id different from the
dragged id and the unfiltered All category; the findIndex results are Option
valued, mirroring the -1 checks. -/
def handleDragEnd (entries : List FoodEntry) (activeId : String)
    (over : Option String) (activeCategory : String) : Option (List FoodEntry) :=
  let differs : Bool := match over with
    | some o => activeId != o
    | none => true
  if differs ∧ activeCategory = "全部" then
    let oldIndex := entries.findIdx? (fun item => item.id = activeId)
    let newIndex := match over with
      | some o => entries.findIdx? (fun item => item.id = o)
      | none => none
    match oldIndex, newIndex with
    | some i, some j => some (arrayMove entries i j)
    | _, _ => none
  else none

/-- handleTagDragEnd from HomeView, for tag rows in the manager: requires a
drop target distinct from the dragged tag, locates both by indexOf, and
reorders via arrayMove; none means no onReorderTags call. -/
def handleTagDragEnd (tags : List String) (activeId : String)
    (over : Option String) : Option (List String) :=
  match over with
  | none => none
  | some o =>
    if activeId ≠ o then
      match tags.findIdx? (fun t => t = activeId), tags.findIdx? (fun t => t = o) with
      | some i, some j => some (arrayMove tags i j)
      | _, _ => none
    else none

/-- Confirm-dialog state of HomeView for the pending bulk action. -/
inductive ConfirmType where
  | cards
  | tag_only
  | tag_all
deriving Repr, DecidableEq

/-- Selection-relevant slice of the HomeView state: the entry collection, the
selection mode flag, the selected ids, the pending confirm dialog and the
move modal flag. -/
structure SelectionState where
  entries : List FoodEntry
  isSelectionMode : Bool
  selectedIds : List String
  deleteConfirmType : Option ConfirmType
  showMoveModal : Bool
deriving Repr, DecidableEq

/-- resetSelection from HomeView: leave selection mode, clear the selected
ids and close the confirm dialog. -/
def resetSelection (s : SelectionState) : SelectionState :=
  { s with isSelectionMode := false, selectedIds := [],
           deleteConfirmType := none }

/-- executeMoveCards from HomeView: append the target tag to each selected
entry when absent, leave the other entries alone, then reset the selection
and close the move modal. -/
def executeMoveCards (s : SelectionState) (targetTag : String) : SelectionState :=
  let idsToMove := s.selectedIds
  let updated := s.entries.map (fun e =>
    if idsToMove.contains e.id then
      let newTags := if e.tags.contains targetTag then e.tags else e.tags ++ [targetTag]
      { e with tags := newTags }
    else e)
  { resetSelection { s with entries := updated } with showMoveModal := false }

/-- executeDeleteCards from HomeView: keep the entries whose id is not
selected, then reset the selection. -/
def executeDeleteCards (s : SelectionState) : SelectionState :=
  let remaining := s.entries.filter (fun e => ¬ s.selectedIds.contains e.id)
  resetSelection { s with entries := remaining }

/-- Input file of the upload handler: the MIME check outcome and the raw
data. The async FileReader/canvas pipeline is outside the core; per the
concurrency model its callbacks perform plain synchronous appends. -/
structure ImgFile where
  isImage : Bool
  data : String
deriving Repr, DecidableEq

/-- Modelled from the spec: the canvas resize/compress step of the image
pipeline is an external image-store concern producing an opaque reference
per accepted file; the reference is kept opaque here. -/
def processFile (f : ImgFile) : String := f.data

/-- handleImageUpload from the AddEntryView form: reject outright at 99 or
more images, otherwise truncate the selection to the remaining free slots,
keep only files whose type is an image type, and append their processed
references. -/
def handleImageUpload (images : List String) (files : List ImgFile) : List String :=
  if images.length ≥ 99 then images
  else if files.length > 0 then
    let remainingSlots := 99 - images.length
    let filesToProcess := files.take remainingSlots
    images ++ (filesToProcess.filter (fun f => f.isImage)).map processFile
  else images

/-- Referential-consistency invariant: every tag carried by an entry is
present in the tag registry order. -/
def TagInvariant (s : AppState) : Prop :=
  ∀ e ∈ s.entries, ∀ t ∈ e.tags, t ∈ s.tags

instance (s : AppState) : Decidable (TagInvariant s) := by
  unfold TagInvariant; infer_instance

/-- One public mutation of the core state. The saveEntry step records the
guarantee the authoring form provides for the tags of a saved entry: each tag
was either typed into the create-tag prompt (which trims it and rejects an
empty result) or toggled from the registry list, so it is a trimmed non-empty
name or an already registered one. -/
inductive Step : AppState → AppState → Prop where
  | saveEntry (s : AppState) (e : FoodEntry)
      (h : ∀ t ∈ e.tags, (jsTrim t = t ∧ t ≠ "") ∨ t ∈ s.tags) :
      Step s (handleSaveEntry s e)
  | addTag (s : AppState) (t : String) :
      Step s { s with tags := handleAddTag s.tags t }
  | renameTag (s : AppState) (oldTag newTag : String) :
      Step s (handleRenameTag s oldTag newTag)
  | deleteTag (s : AppState) (t : String) (mode : DeleteTagMode) :
      Step s (confirmDeleteTag s t mode)

/-- States reachable from the initial state by public operations. -/
inductive Reachable : AppState → Prop where
  | init : Reachable initialState
  | step {s s2 : AppState} : Reachable s → Step s s2 → Reachable s2

/-- Entry E1 of the testable-properties setup: tags x. -/
def exE1 : FoodEntry :=
  { id := "E1", title := "一", location := "甲", date := "10月01日",
    images := ["img1"], coverImageIndex := 0, tags := ["x"],
    ratingTenths := 40, description := "第一条" }

/-- Entry E2 of the testable-properties setup: tags x and y. -/
def exE2 : FoodEntry :=
  { id := "E2", title := "二", location := "乙", date := "10月02日",
    images := ["img2"], coverImageIndex := 0, tags := ["x", "y"],
    ratingTenths := 45, description := "第二条" }

/-- Entry E3 of the testable-properties setup: tags y. -/
def exE3 : FoodEntry :=
  { id := "E3", title := "三", location := "丙", date := "10月03日",
    images := ["img3"], coverImageIndex := 0, tags := ["y"],
    ratingTenths := 50, description := "第三条" }

/-- State for the cascade-deletion examples: entries E1, E2, E3, registry
x then y, active filter x. -/
def exState : AppState :=
  { entries := [exE1, exE2, exE3], tags := ["x", "y"], activeCategory := "x" }

/-- Single entry tagged A, used by the rename examples. -/
def entryA : FoodEntry :=
  { id := "1", title := "条目", location := "某地", date := "10月01日",
    images := ["img"], coverImageIndex := 0, tags := ["A"],
    ratingTenths := 40, description := "说明" }

/-- State with registry A and one entry tagged A, for the rename no-op
examples. -/
def stateA : AppState :=
  { entries := [entryA], tags := ["A"], activeCategory := "全部" }

/-- State of the merge-on-rename example: registry A then B, one entry
tagged A. -/
def stateAB : AppState :=
  { entries := [entryA], tags := ["A", "B"], activeCategory := "全部" }

/-- Order used by the reorder example. -/
def demoOrder : List String := ["A", "B", "C", "D"]

/-- Entry saved by the invariant witness: one registered tag and one new
trimmed tag. -/
def wEntry : FoodEntry :=
  { id := "5", title := "新条目", location := "某地", date := "10月20日",
    images := ["img5"], coverImageIndex := 0, tags := ["早餐", "夜宵"],
    ratingTenths := 43, description := "新增" }

/-- C4, counterexample: the claim says an absent or unparseable entries blob
initializes the store to an empty entry collection, but the initializer falls
back to the non-empty built-in INITIAL_ENTRIES mock list. -/
theorem C4_counterexample : loadEntries none ≠ ([] : List FoodEntry) := by
  decide

/-- C4, amended: when the persisted entries blob is absent or fails to
parse, the store initializes to the built-in INITIAL_ENTRIES mock collection
(which is not empty); when the persisted tag order is absent or fails to
parse, the registry initializes to the built-in DEFAULT_TAGS set. -/
theorem C4_startup_fallback :
    loadEntries none = INITIAL_ENTRIES ∧
    loadEntries (some none) = INITIAL_ENTRIES ∧
    INITIAL_ENTRIES ≠ [] ∧
    loadTags none = DEFAULT_TAGS ∧
    loadTags (some none) = DEFAULT_TAGS :=
  ⟨rfl, rfl, by decide, rfl, rfl⟩

/-- C8: whenever the active tag filter is any category other than the
unfiltered All view, a card reorder request produces no mutation of the
entry order and no persistence write (the handler result none means
onEntriesUpdate never runs). -/
theorem C8_filter_disables_reorder (entries : List FoodEntry)
    (activeId : String) (over : Option String) (activeCategory : String)
    (h : activeCategory ≠ "全部") :
    handleDragEnd entries activeId over activeCategory = none := by
  unfold handleDragEnd
  simp [h]

/-- C8 witness: with active filter y, dragging entry 1 over entry 2 is
ignored. -/
theorem C8_witness :
    ("y" : String) ≠ "全部" ∧
    handleDragEnd INITIAL_ENTRIES "1" (some "2") "y" = none :=
  ⟨by decide, C8_filter_disables_reorder INITIAL_ENTRIES "1" (some "2") "y"
    (by decide)⟩

/-- C3, counterexample: the claim says a rename whose old name equals the
trimmed new name is a no-op, but renaming A to the name A followed by a
space (which trims to A) passes the pre-trim guard and then deletes A from
the registry and from the entry instead of leaving the state unchanged. -/
theorem C3_counterexample :
    jsTrim "A " = "A" ∧ handleRenameTag stateA "A" "A " ≠ stateA := by
  constructor
  · decide
  · decide

/-- C3, amended: a rename where the old name equals the new name as supplied
(the handler compares the names before trimming; the manager UI trims the
new name before invoking the rename, so a trimmed new name equal to the old
name also arrives equal to it) is a no-op: the registry order and every
entry tag set are left unchanged. -/
theorem C3_rename_noop_on_equal (s : AppState) (oldTag newTag : String)
    (h : oldTag = newTag) :
    handleRenameTag s oldTag newTag = s := by
  unfold handleRenameTag
  simp [h]

/-- C3 witness: renaming A to A leaves the state with registry A and the
entry tagged A unchanged. -/
theorem C3_witness :
    ("A" : String) = "A" ∧ handleRenameTag stateA "A" "A" = stateA :=
  ⟨rfl, C3_rename_noop_on_equal stateA "A" "A" rfl⟩

/-- C10: the authoring-form image list never exceeds 99 elements. An upload
attempted with 99 or more images already present is rejected with no
mutation, and a multi-file selection only ever contributes files from the
first remaining-free-slots positions (99 minus the current count). -/
theorem C10_image_cap (images : List String) (files : List ImgFile)
    (h : images.length ≤ 99) :
    (handleImageUpload images files).length ≤ 99 ∧
    (images.length = 99 → handleImageUpload images files = images) ∧
    handleImageUpload images files =
      handleImageUpload images (files.take (99 - images.length)) := by
  by_cases h99 : 99 ≤ images.length
  · have hself : ∀ fs : List ImgFile, handleImageUpload images fs = images := by
      intro fs
      unfold handleImageUpload
      simp [h99]
    exact ⟨by rw [hself files]; exact h, fun _ => hself files,
      by rw [hself files, hself (files.take (99 - images.length))]⟩
  · push_neg at h99
    have hk : 1 ≤ 99 - images.length := by omega
    unfold handleImageUpload
    simp only [ge_iff_le, if_neg (by omega : ¬ 99 ≤ images.length)]
    by_cases hf : 0 < files.length
    · have htl : 0 < (files.take (99 - images.length)).length := by
        rw [List.length_take]
        omega
      rw [if_pos hf, if_pos htl, List.take_take, Nat.min_self]
      have hfilter : ((files.take (99 - images.length)).filter
          (fun f => f.isImage)).length ≤ (files.take (99 - images.length)).length :=
        List.length_filter_le _ _
      have htake : (files.take (99 - images.length)).length ≤ 99 - images.length := by
        rw [List.length_take]
        omega
      refine ⟨?_, fun he => absurd he (by omega), rfl⟩
      rw [List.length_append, List.length_map]
      omega
    · have hf0 : files.length = 0 := by omega
      have htl : ¬ 0 < (files.take (99 - images.length)).length := by
        rw [List.length_take]
        omega
      rw [if_neg hf, if_neg htl]
      exact ⟨by omega, fun _ => rfl, rfl⟩

/-- C10 witness: with 99 images present an upload of one more image file is
rejected outright. -/
theorem C10_witness :
    (List.replicate 99 "i").length ≤ 99 ∧
    ((handleImageUpload (List.replicate 99 "i") [⟨true, "x"⟩]).length ≤ 99 ∧
      ((List.replicate 99 "i").length = 99 →
        handleImageUpload (List.replicate 99 "i") [⟨true, "x"⟩] =
          List.replicate 99 "i") ∧
      handleImageUpload (List.replicate 99 "i") [⟨true, "x"⟩] =
        handleImageUpload (List.replicate 99 "i")
          ([⟨true, "x"⟩].take (99 - (List.replicate 99 "i").length))) :=
  ⟨by simp, C10_image_cap (List.replicate 99 "i") [⟨true, "x"⟩] (by simp)⟩

/-- C9: bulk move with a non-empty selection appends the target tag to each
selected entry when it is absent, never drops a prior tag, leaves unselected
entries untouched in place, and afterwards the selection is cleared and
selection mode exits. -/
theorem C9_bulk_move_additive (s : SelectionState) (targetTag : String)
    (hsel : s.selectedIds ≠ []) :
    (executeMoveCards s targetTag).isSelectionMode = false ∧
    (executeMoveCards s targetTag).selectedIds = [] ∧
    (executeMoveCards s targetTag).entries.length = s.entries.length ∧
    ∀ (i : Nat) (e : FoodEntry), s.entries[i]? = some e →
      ∃ e2, (executeMoveCards s targetTag).entries[i]? = some e2 ∧
        e2.id = e.id ∧
        (e.id ∉ s.selectedIds → e2 = e) ∧
        (e.id ∈ s.selectedIds →
          e2.title = e.title ∧ e2.location = e.location ∧
          e2.date = e.date ∧ e2.images = e.images ∧
          e2.coverImageIndex = e.coverImageIndex ∧
          e2.ratingTenths = e.ratingTenths ∧
          e2.description = e.description ∧ e2.weather = e.weather ∧
          targetTag ∈ e2.tags ∧
          (∀ t ∈ e.tags, t ∈ e2.tags) ∧
          (targetTag ∈ e.tags → e2.tags = e.tags) ∧
          (targetTag ∉ e.tags → e2.tags = e.tags ++ [targetTag])) := by
  refine ⟨rfl, rfl, by simp [executeMoveCards, resetSelection], ?_⟩
  intro i e he
  have hmap : (executeMoveCards s targetTag).entries =
      s.entries.map (fun e =>
        if s.selectedIds.contains e.id then
          { e with tags := if e.tags.contains targetTag then e.tags
                           else e.tags ++ [targetTag] }
        else e) := rfl
  rw [hmap, List.getElem?_map, he]
  refine ⟨_, rfl, ?_, ?_, ?_⟩
  · by_cases hc : e.id ∈ s.selectedIds <;> by_cases ht : targetTag ∈ e.tags <;>
      simp [hc, ht]
  · intro hn
    simp [hn]
  · intro hc
    by_cases ht : targetTag ∈ e.tags
    · simp [hc, ht]
    · simp [hc, ht]
      exact fun t htt => Or.inl htt

/-- C9 witness: moving the selected entries E1 and E3 to tag y adds y to E1,
leaves E2 untouched, leaves E3 (already tagged y) with a single y, and exits
selection mode with an empty selection. -/
theorem C9_witness :
    (["E1", "E3"] : List String) ≠ [] ∧
    ((executeMoveCards ⟨[exE1, exE2, exE3], true, ["E1", "E3"], none, true⟩
        "y").isSelectionMode = false ∧
      (executeMoveCards ⟨[exE1, exE2, exE3], true, ["E1", "E3"], none, true⟩
        "y").selectedIds = [] ∧
      (executeMoveCards ⟨[exE1, exE2, exE3], true, ["E1", "E3"], none, true⟩
          "y").entries.length =
        (⟨[exE1, exE2, exE3], true, ["E1", "E3"], none, true⟩ :
          SelectionState).entries.length ∧
      ∀ (i : Nat) (e : FoodEntry), (⟨[exE1, exE2, exE3], true, ["E1", "E3"], none, true⟩ :
          SelectionState).entries[i]? = some e →
        ∃ e2, (executeMoveCards
            ⟨[exE1, exE2, exE3], true, ["E1", "E3"], none, true⟩
            "y").entries[i]? = some e2 ∧
          e2.id = e.id ∧
          (e.id ∉ (["E1", "E3"] : List String) → e2 = e) ∧
          (e.id ∈ (["E1", "E3"] : List String) →
            e2.title = e.title ∧ e2.location = e.location ∧
            e2.date = e.date ∧ e2.images = e.images ∧
            e2.coverImageIndex = e.coverImageIndex ∧
            e2.ratingTenths = e.ratingTenths ∧
            e2.description = e.description ∧ e2.weather = e.weather ∧
            "y" ∈ e2.tags ∧
            (∀ t ∈ e.tags, t ∈ e2.tags) ∧
            ("y" ∈ e.tags → e2.tags = e.tags) ∧
            ("y" ∉ e.tags → e2.tags = e.tags ++ ["y"]))) ∧
    (executeMoveCards ⟨[exE1, exE2, exE3], true, ["E1", "E3"], none, true⟩
        "y").entries =
      [{ exE1 with tags := ["x", "y"] }, exE2, exE3] :=
  ⟨by decide,
    C9_bulk_move_additive ⟨[exE1, exE2, exE3], true, ["E1", "E3"], none, true⟩
      "y" (by decide),
    by decide⟩

/-- C5: deleting a registered tag together with its entries removes the tag
from the registry order, deletes exactly the entries whose tag set holds the
tag, keeps the remaining entries in their prior relative order, and resets
the active filter to the All view when it pointed at the deleted tag. -/
theorem C5_delete_tag_and_entries (s : AppState) (t : String)
    (hmem : t ∈ s.tags) (hne : t ≠ "") :
    (∀ e ∈ s.entries, t ∈ e.tags →
      e ∉ (confirmDeleteTag s t DeleteTagMode.tag_all).entries) ∧
    (∀ e ∈ s.entries, t ∉ e.tags →
      e ∈ (confirmDeleteTag s t DeleteTagMode.tag_all).entries) ∧
    (confirmDeleteTag s t DeleteTagMode.tag_all).entries.Sublist s.entries ∧
    t ∉ (confirmDeleteTag s t DeleteTagMode.tag_all).tags ∧
    (∀ u ∈ s.tags, u ≠ t →
      u ∈ (confirmDeleteTag s t DeleteTagMode.tag_all).tags) ∧
    (confirmDeleteTag s t DeleteTagMode.tag_all).tags.Sublist s.tags ∧
    (s.activeCategory = t →
      (confirmDeleteTag s t DeleteTagMode.tag_all).activeCategory = "全部") := by
  have hstate : confirmDeleteTag s t DeleteTagMode.tag_all =
      { entries := s.entries.filter (fun e => ¬ e.tags.contains t),
        tags := s.tags.filter (fun u => u ≠ t),
        activeCategory := if s.activeCategory = t then "全部"
                          else s.activeCategory } := by
    unfold confirmDeleteTag handleDeleteTag
    rw [if_neg hne]
  rw [hstate]
  refine ⟨?_, ?_, List.filter_sublist _, ?_, ?_, List.filter_sublist _, ?_⟩
  · intro e hmem1 htag hcon
    rw [List.mem_filter] at hcon
    simp at hcon
    exact hcon.2 htag
  · intro e hmem1 htag
    rw [List.mem_filter]
    simp
    exact ⟨hmem1, htag⟩
  · intro hcon
    rw [List.mem_filter] at hcon
    simp at hcon
  · intro u humem hune
    rw [List.mem_filter]
    simp
    exact ⟨humem, hune⟩
  · intro hact
    simp [hact]

/-- C5 witness: on the E1,E2,E3 setup deleting x with its entries removes E1
and E2, keeps E3, drops x from the registry and resets the x filter to the
All view. -/
theorem C5_witness :
    ("x" ∈ exState.tags ∧ ("x" : String) ≠ "") ∧
    (exE2 ∈ exState.entries → "x" ∈ exE2.tags →
      exE2 ∉ (confirmDeleteTag exState "x" DeleteTagMode.tag_all).entries) ∧
    confirmDeleteTag exState "x" DeleteTagMode.tag_all =
      { entries := [exE3], tags := ["y"], activeCategory := "全部" } :=
  ⟨⟨by decide, by decide⟩,
    fun h1 h2 => (C5_delete_tag_and_entries exState "x" (by decide)
      (by decide)).1 exE2 h1 h2,
    by decide⟩

/-- C6: deleting a registered tag in tag-only mode removes the tag from the
registry order and filters it out of every entry tag set while preserving
every entry (same id and position, every other field unchanged). -/
theorem C6_delete_tag_only (s : AppState) (t : String)
    (hmem : t ∈ s.tags) (hne : t ≠ "") :
    (confirmDeleteTag s t DeleteTagMode.tag_only).entries.length =
      s.entries.length ∧
    (∀ (i : Nat) (e : FoodEntry), s.entries[i]? = some e →
      ∃ e2, (confirmDeleteTag s t DeleteTagMode.tag_only).entries[i]? = some e2 ∧
        e2.id = e.id ∧ e2.title = e.title ∧ e2.location = e.location ∧
        e2.date = e.date ∧ e2.images = e.images ∧
        e2.coverImageIndex = e.coverImageIndex ∧
        e2.ratingTenths = e.ratingTenths ∧ e2.description = e.description ∧
        e2.weather = e.weather ∧
        e2.tags = e.tags.filter (fun u => u ≠ t) ∧ t ∉ e2.tags) ∧
    t ∉ (confirmDeleteTag s t DeleteTagMode.tag_only).tags ∧
    (∀ u ∈ s.tags, u ≠ t →
      u ∈ (confirmDeleteTag s t DeleteTagMode.tag_only).tags) ∧
    (confirmDeleteTag s t DeleteTagMode.tag_only).tags.Sublist s.tags := by
  have hstate : confirmDeleteTag s t DeleteTagMode.tag_only =
      { entries := s.entries.map
          (fun e => { e with tags := e.tags.filter (fun u => u ≠ t) }),
        tags := s.tags.filter (fun u => u ≠ t),
        activeCategory := if s.activeCategory = t then "全部"
                          else s.activeCategory } := by
    unfold confirmDeleteTag handleDeleteTag
    rw [if_neg hne]
  rw [hstate]
  refine ⟨by simp, ?_, ?_, ?_, List.filter_sublist _⟩
  · intro i e he
    rw [List.getElem?_map, he]
    refine ⟨_, rfl, rfl, rfl, rfl, rfl, rfl, rfl, rfl, rfl, rfl, rfl, ?_⟩
    intro hcon
    rw [List.mem_filter] at hcon
    simp at hcon
  · intro hcon
    rw [List.mem_filter] at hcon
    simp at hcon
  · intro u humem hune
    rw [List.mem_filter]
    simp
    exact ⟨humem, hune⟩

/-- C6 witness: on the E1,E2,E3 setup deleting x tag-only keeps all three
entries in place with x stripped from their tag sets and removes x from the
registry. -/
theorem C6_witness :
    ("x" ∈ exState.tags ∧ ("x" : String) ≠ "") ∧
    ((confirmDeleteTag exState "x" DeleteTagMode.tag_only).entries.length =
      exState.entries.length) ∧
    "x" ∉ (confirmDeleteTag exState "x" DeleteTagMode.tag_only).tags ∧
    confirmDeleteTag exState "x" DeleteTagMode.tag_only =
      { entries := [{ exE1 with tags := [] }, { exE2 with tags := ["y"] },
                    { exE3 with tags := ["y"] }],
        tags := ["y"], activeCategory := "全部" } :=
  ⟨⟨by decide, by decide⟩,
    (C6_delete_tag_only exState "x" (by decide) (by decide)).1,
    (C6_delete_tag_only exState "x" (by decide) (by decide)).2.2.1,
    by decide⟩

/-- Replacing a by b in a list keeps every member different from a. -/
lemma mem_map_replace_of_mem_ne {l : List String} {a b u : String}
    (hu : u ∈ l) (hne : u ≠ a) :
    u ∈ l.map (fun t => if t = a then b else t) := by
  rw [List.mem_map]
  exact ⟨u, hu, by rw [if_neg hne]⟩

/-- Replacing a by b in a list containing a produces b. -/
lemma mem_map_replace_self {l : List String} {a b : String} (ha : a ∈ l) :
    b ∈ l.map (fun t => if t = a then b else t) := by
  rw [List.mem_map]
  exact ⟨a, ha, by rw [if_pos rfl]⟩

/-- After replacing a by a different b, a is gone from the list. -/
lemma not_mem_map_replace {l : List String} {a b : String} (hab : a ≠ b) :
    a ∉ l.map (fun t => if t = a then b else t) := by
  rw [List.mem_map]
  rintro ⟨v, _, hv⟩
  by_cases hva : v = a
  · rw [if_pos hva] at hv
    exact hab hv.symm
  · rw [if_neg hva] at hv
    exact hva hv

/-- Every member of the replaced list is b or an original member. -/
lemma mem_of_mem_map_replace {l : List String} {a b u : String}
    (hu : u ∈ l.map (fun t => if t = a then b else t)) : u = b ∨ u ∈ l := by
  rw [List.mem_map] at hu
  obtain ⟨v, hv, huv⟩ := hu
  by_cases hva : v = a
  · rw [if_pos hva] at huv
    exact Or.inl huv.symm
  · rw [if_neg hva] at huv
    exact Or.inr (huv ▸ hv)

/-- Replacing a by a fresh b in a duplicate-free list keeps it
duplicate-free. -/
lemma nodup_map_replace {l : List String} {a b : String}
    (hnd : l.Nodup) (hb : b ∉ l) :
    (l.map (fun t => if t = a then b else t)).Nodup := by
  induction l with
  | nil => exact List.nodup_nil
  | cons x xs ih =>
    rw [List.map_cons, List.nodup_cons]
    rw [List.nodup_cons] at hnd
    have hbxs : b ∉ xs := fun hmem => hb (List.mem_cons_of_mem _ hmem)
    refine ⟨?_, ih hnd.2 hbxs⟩
    by_cases hxa : x = a
    · rw [if_pos hxa]
      intro hcon
      rw [List.mem_map] at hcon
      obtain ⟨v, hv, hvb⟩ := hcon
      by_cases hva : v = a
      · exact (hxa ▸ hnd.1) (hva ▸ hv)
      · rw [if_neg hva] at hvb
        exact hbxs (hvb ▸ hv)
    · rw [if_neg hxa]
      intro hcon
      rcases mem_of_mem_map_replace hcon with h | h
      · exact hb (by rw [← h]; exact List.mem_cons_self x xs)
      · exact hnd.1 h

/-- C2: merge-on-rename. Renaming a registered old tag to an already
registered (trimmed) new tag removes the old tag from the registry order,
keeps exactly one occurrence of the new tag, and for every entry holding the
old tag drops it and adds the new tag only when not already present, so a
duplicate-free entry tag set stays duplicate-free; entries without the old
tag are untouched. -/
theorem C2_merge_on_rename (s : AppState) (oldTag newTag : String)
    (htrim : jsTrim newTag = newTag) (hmem : newTag ∈ s.tags)
    (hold : oldTag ≠ "") (hnew : newTag ≠ "") (hne : oldTag ≠ newTag) :
    oldTag ∉ (handleRenameTag s oldTag newTag).tags ∧
    (∀ u ∈ s.tags, u ≠ oldTag → u ∈ (handleRenameTag s oldTag newTag).tags) ∧
    (handleRenameTag s oldTag newTag).tags.Sublist s.tags ∧
    (s.tags.Nodup → (handleRenameTag s oldTag newTag).tags.count newTag = 1) ∧
    (handleRenameTag s oldTag newTag).entries.length = s.entries.length ∧
    (∀ (i : Nat) (e : FoodEntry), s.entries[i]? = some e →
      ∃ e2, (handleRenameTag s oldTag newTag).entries[i]? = some e2 ∧
        e2.id = e.id ∧
        (oldTag ∉ e.tags → e2 = e) ∧
        (oldTag ∈ e.tags →
          oldTag ∉ e2.tags ∧ newTag ∈ e2.tags ∧
          (∀ u ∈ e.tags, u ≠ oldTag → u ∈ e2.tags) ∧
          (∀ u ∈ e2.tags, u = newTag ∨ u ∈ e.tags) ∧
          (e.tags.Nodup → e2.tags.Nodup))) := by
  have hguard : ¬ (oldTag = "" ∨ newTag = "" ∨ oldTag = newTag) := by
    simp [hold, hnew, hne]
  have hstate : handleRenameTag s oldTag newTag =
      { s with
        tags := s.tags.filter (fun t => t ≠ oldTag),
        entries := s.entries.map (fun e =>
          if e.tags.contains oldTag then
            if e.tags.contains newTag then
              { e with tags := e.tags.filter (fun t => t ≠ oldTag) }
            else
              { e with tags := e.tags.map (fun t => if t = oldTag then newTag else t) }
          else e) } := by
    unfold handleRenameTag
    rw [if_neg hguard]
    simp only [htrim]
    rw [if_pos (by simp [hmem])]
  rw [hstate]
  refine ⟨?_, ?_, List.filter_sublist _, ?_, by simp, ?_⟩
  · intro hcon
    rw [List.mem_filter] at hcon
    simp at hcon
  · intro u humem hune
    rw [List.mem_filter]
    simp
    exact ⟨humem, hune⟩
  · intro hnd
    exact List.count_eq_one_of_mem (hnd.filter _)
      (by rw [List.mem_filter]; simp; exact ⟨hmem, fun h => hne h.symm⟩)
  · intro i e he
    rw [List.getElem?_map, he]
    refine ⟨_, rfl, ?_, ?_, ?_⟩
    · by_cases h1 : oldTag ∈ e.tags <;> by_cases h2 : newTag ∈ e.tags <;>
        simp [h1, h2]
    · intro h1
      simp [h1]
    · intro h1
      by_cases h2 : newTag ∈ e.tags
      · have hfe : (if e.tags.contains oldTag then
            if e.tags.contains newTag then
              { e with tags := e.tags.filter (fun t => t ≠ oldTag) }
            else
              { e with tags := e.tags.map (fun t => if t = oldTag then newTag else t) }
          else e) = { e with tags := e.tags.filter (fun t => t ≠ oldTag) } := by
          simp [h1, h2]
        simp only [hfe]
        refine ⟨?_, ?_, ?_, ?_, fun hnd => hnd.filter _⟩
        · intro hcon
          rw [List.mem_filter] at hcon
          simp at hcon
        · rw [List.mem_filter]
          simp
          exact ⟨h2, fun h => hne h.symm⟩
        · intro u humem hune
          rw [List.mem_filter]
          simp
          exact ⟨humem, hune⟩
        · intro u humem
          rw [List.mem_filter] at humem
          exact Or.inr humem.1
      · have hfe : (if e.tags.contains oldTag then
            if e.tags.contains newTag then
              { e with tags := e.tags.filter (fun t => t ≠ oldTag) }
            else
              { e with tags := e.tags.map (fun t => if t = oldTag then newTag else t) }
          else e) = { e with tags := e.tags.map (fun t => if t = oldTag then newTag else t) } := by
          simp [h1, h2]
        simp only [hfe]
        exact ⟨not_mem_map_replace hne,
          mem_map_replace_self h1,
          fun u humem hune => mem_map_replace_of_mem_ne humem hune,
          fun u humem => mem_of_mem_map_replace humem,
          fun hnd => nodup_map_replace hnd h2⟩

/-- C2 witness: with registry A then B and one entry tagged A, renaming A to
B yields registry B alone and the entry tagged exactly B once. -/
theorem C2_witness :
    (jsTrim "B" = "B" ∧ "B" ∈ stateAB.tags ∧ ("A" : String) ≠ "" ∧
      ("B" : String) ≠ "" ∧ ("A" : String) ≠ "B") ∧
    "A" ∉ (handleRenameTag stateAB "A" "B").tags ∧
    (stateAB.tags.Nodup → (handleRenameTag stateAB "A" "B").tags.count "B" = 1) ∧
    handleRenameTag stateAB "A" "B" =
      { entries := [{ entryA with tags := ["B"] }], tags := ["B"],
        activeCategory := "全部" } :=
  ⟨⟨by decide, by decide, by decide, by decide, by decide⟩,
    (C2_merge_on_rename stateAB "A" "B" (by decide) (by decide) (by decide)
      (by decide) (by decide)).1,
    (C2_merge_on_rename stateAB "A" "B" (by decide) (by decide) (by decide)
      (by decide) (by decide)).2.2.2.1,
    by decide⟩

/-- Inserting via insertAt always grows the length by one (a past-the-end
index appends). -/
lemma length_insertAt (n : Nat) (a : α) (l : List α) :
    (insertAt n a l).length = l.length + 1 := by
  induction n generalizing l with
  | zero => rfl
  | succ n ih =>
    cases l with
    | nil => rfl
    | cons x xs => simp [insertAt, ih]

/-- The element inserted at an in-range position is found there. -/
lemma getElem?_insertAt_self (n : Nat) (a : α) (l : List α) (h : n ≤ l.length) :
    (insertAt n a l)[n]? = some a := by
  induction n generalizing l with
  | zero => simp [insertAt]
  | succ n ih =>
    cases l with
    | nil => exact absurd (by simpa using h) (Nat.not_succ_le_zero n)
    | cons x xs =>
      simp only [insertAt, List.getElem?_cons_succ]
      exact ih xs (by simpa using h)

/-- Erasing the freshly inserted element restores the original list. -/
lemma eraseIdx_insertAt (n : Nat) (a : α) (l : List α) (h : n ≤ l.length) :
    (insertAt n a l).eraseIdx n = l := by
  induction n generalizing l with
  | zero => rfl
  | succ n ih =>
    cases l with
    | nil => exact absurd (by simpa using h) (Nat.not_succ_le_zero n)
    | cons x xs =>
      simp only [insertAt, List.eraseIdx_cons_succ, List.cons.injEq, true_and]
      exact ih xs (by simpa using h)

/-- Reinserting the element just erased at the same position restores the
original list. -/
lemma insertAt_getElem?_eraseIdx (l : List α) (n : Nat) (x : α)
    (h : l[n]? = some x) :
    insertAt n x (l.eraseIdx n) = l := by
  induction l generalizing n with
  | nil => simp at h
  | cons y ys ih =>
    cases n with
    | zero =>
      simp only [List.getElem?_cons_zero, Option.some.injEq] at h
      subst h
      rfl
    | succ n =>
      simp only [List.getElem?_cons_succ] at h
      simp only [List.eraseIdx_cons_succ, insertAt, List.cons.injEq, true_and]
      exact ih n h

/-- C7: the reorder primitive moves the element at the source index to the
target index while the remaining elements keep their relative order (erasing
the moved element from the result gives the list with the source erased),
preserving the length; a reorder with equal indices leaves the order
unchanged; and the drag handlers make no mutation and no persistence write
when the drop target is missing, equals the dragged item, or either index
lookup fails (the out-of-bounds cases). -/
theorem C7_reorder_correct :
    (∀ (α : Type) (l : List α) (src tgt : Nat), src < l.length → tgt < l.length →
        (arrayMove l src tgt).length = l.length ∧
        (arrayMove l src tgt)[tgt]? = l[src]? ∧
        (arrayMove l src tgt).eraseIdx tgt = l.eraseIdx src) ∧
    (∀ (α : Type) (l : List α) (i : Nat), arrayMove l i i = l) ∧
    (∀ (tags : List String) (activeId : String),
        handleTagDragEnd tags activeId none = none) ∧
    (∀ (tags : List String) (activeId : String),
        handleTagDragEnd tags activeId (some activeId) = none) ∧
    (∀ (tags : List String) (a b : String), a ∉ tags ∨ b ∉ tags →
        handleTagDragEnd tags a (some b) = none) ∧
    (∀ (entries : List FoodEntry) (activeId activeCategory : String),
        handleDragEnd entries activeId none activeCategory = none) ∧
    (∀ (entries : List FoodEntry) (activeId activeCategory : String),
        handleDragEnd entries activeId (some activeId) activeCategory = none) ∧
    (∀ (entries : List FoodEntry) (a b activeCategory : String),
        (∀ e ∈ entries, e.id ≠ a) ∨ (∀ e ∈ entries, e.id ≠ b) →
        handleDragEnd entries a (some b) activeCategory = none) := by
  refine ⟨?_, ?_, ?_, ?_, ?_, ?_, ?_, ?_⟩
  · intro α l src tgt hs ht
    obtain ⟨x, hx⟩ : ∃ x, l[src]? = some x := ⟨l[src], List.getElem?_eq_getElem hs⟩
    have hmove : arrayMove l src tgt = insertAt tgt x (l.eraseIdx src) := by
      simp [arrayMove, hx]
    have herase : (l.eraseIdx src).length = l.length - 1 :=
      List.length_eraseIdx_of_lt hs
    have htle : tgt ≤ (l.eraseIdx src).length := by omega
    refine ⟨?_, ?_, ?_⟩
    · rw [hmove, length_insertAt, herase]
      omega
    · rw [hmove, getElem?_insertAt_self _ _ _ htle, hx]
    · rw [hmove, eraseIdx_insertAt _ _ _ htle]
  · intro α l i
    match hx : l[i]? with
    | none => simp [arrayMove, hx]
    | some x =>
      simp only [arrayMove, hx]
      exact insertAt_getElem?_eraseIdx l i x hx
  · intro tags activeId
    rfl
  · intro tags activeId
    simp [handleTagDragEnd]
  · intro tags a b h
    cases h1 : tags.findIdx? (fun t => t = a) with
    | none => cases h2 : tags.findIdx? (fun t => t = b) with
      | none => simp [handleTagDragEnd, h1, h2]
      | some j => simp [handleTagDragEnd, h1, h2]
    | some i => cases h2 : tags.findIdx? (fun t => t = b) with
      | none => simp [handleTagDragEnd, h1, h2]
      | some j =>
        exfalso
        obtain ⟨hi, hpi, _⟩ := List.findIdx?_eq_some_iff_getElem.mp h1
        obtain ⟨hj, hpj, _⟩ := List.findIdx?_eq_some_iff_getElem.mp h2
        simp only [decide_eq_true_eq] at hpi hpj
        rcases h with h | h
        · exact h (hpi ▸ List.getElem_mem hi)
        · exact h (hpj ▸ List.getElem_mem hj)
  · intro entries activeId activeCategory
    cases h1 : entries.findIdx? (fun item => item.id = activeId) with
    | none => simp [handleDragEnd, h1]
    | some i => simp [handleDragEnd, h1]
  · intro entries activeId activeCategory
    simp [handleDragEnd]
  · intro entries a b activeCategory h
    cases h1 : entries.findIdx? (fun item => item.id = a) with
    | none => cases h2 : entries.findIdx? (fun item => item.id = b) with
      | none => simp [handleDragEnd, h1, h2]
      | some j => simp [handleDragEnd, h1, h2]
    | some i => cases h2 : entries.findIdx? (fun item => item.id = b) with
      | none => simp [handleDragEnd, h1, h2]
      | some j =>
        exfalso
        obtain ⟨hi, hpi, _⟩ := List.findIdx?_eq_some_iff_getElem.mp h1
        obtain ⟨hj, hpj, _⟩ := List.findIdx?_eq_some_iff_getElem.mp h2
        simp only [decide_eq_true_eq] at hpi hpj
        rcases h with h | h
        · exact h entries[i] (List.getElem_mem hi) hpi
        · exact h entries[j] (List.getElem_mem hj) hpj

/-- C7 witness: moving the element at index 0 of the order A,B,C,D to index
2 yields B,C,A,D. -/
theorem C7_witness :
    (0 < demoOrder.length ∧ 2 < demoOrder.length) ∧
    ((arrayMove demoOrder 0 2).length = demoOrder.length ∧
      (arrayMove demoOrder 0 2)[2]? = demoOrder[0]? ∧
      (arrayMove demoOrder 0 2).eraseIdx 2 = demoOrder.eraseIdx 0) ∧
    arrayMove demoOrder 0 2 = ["B", "C", "A", "D"] :=
  ⟨⟨by decide, by decide⟩,
    C7_reorder_correct.1 String demoOrder 0 2 (by decide) (by decide),
    by decide⟩

/-- Adding a tag never removes registry members. -/
lemma mem_handleAddTag (tags : List String) (t u : String) (hu : u ∈ tags) :
    u ∈ handleAddTag tags t := by
  unfold handleAddTag
  split
  · exact hu
  · split
    · exact hu
    · exact List.mem_append_left _ hu

/-- The save-time tag fold never removes accumulator members. -/
lemma mem_foldl_addTagStale_of_mem (stale ts acc : List String) (a : String)
    (ha : a ∈ acc) : a ∈ ts.foldl (addTagStale stale) acc := by
  induction ts generalizing acc with
  | nil => exact ha
  | cons x xs ih =>
    apply ih
    unfold addTagStale
    split
    · exact ha
    · split
      · exact ha
      · exact List.mem_append_left _ ha

/-- A trimmed non-empty saved tag missing from the stale registry is
appended by the save-time fold. -/
lemma mem_foldl_addTagStale_self (stale ts acc : List String) (t : String)
    (hmem : t ∈ ts) (htrim : jsTrim t = t) (hne : t ≠ "") (hstale : t ∉ stale) :
    t ∈ ts.foldl (addTagStale stale) acc := by
  induction ts generalizing acc with
  | nil => cases hmem
  | cons x xs ih =>
    rw [List.foldl_cons]
    rcases List.mem_cons.mp hmem with rfl | hx
    · apply mem_foldl_addTagStale_of_mem
      unfold addTagStale
      rw [htrim, if_neg hne, if_neg (by simp [hstale])]
      exact List.mem_append_right _ (List.mem_singleton.mpr rfl)
    · exact ih _ hx

/-- Saving an entry whose tags are each registered or trimmed non-empty
preserves the referential-consistency invariant. -/
lemma tagInvariant_saveEntry (s : AppState) (e : FoodEntry)
    (hguar : ∀ t ∈ e.tags, (jsTrim t = t ∧ t ≠ "") ∨ t ∈ s.tags)
    (inv : TagInvariant s) : TagInvariant (handleSaveEntry s e) := by
  have hmemtag : ∀ u ∈ e.tags, u ∈ e.tags.foldl (addTagStale s.tags) s.tags := by
    intro u hu
    rcases hguar u hu with ⟨htrim, hne⟩ | hmem
    · by_cases hst : u ∈ s.tags
      · exact mem_foldl_addTagStale_of_mem _ _ _ _ hst
      · exact mem_foldl_addTagStale_self _ _ _ _ hu htrim hne hst
    · exact mem_foldl_addTagStale_of_mem _ _ _ _ hmem
  intro e2 he2 t ht
  have hentries : (handleSaveEntry s e).entries =
      if s.entries.any (fun x => x.id = e.id) then
        s.entries.map (fun x => if x.id = e.id then e else x)
      else e :: s.entries := rfl
  rw [hentries] at he2
  show t ∈ e.tags.foldl (addTagStale s.tags) s.tags
  split at he2
  · rw [List.mem_map] at he2
    obtain ⟨x, hx, hxe⟩ := he2
    by_cases hid : x.id = e.id
    · rw [if_pos hid] at hxe
      subst hxe
      exact hmemtag t ht
    · rw [if_neg hid] at hxe
      subst hxe
      exact mem_foldl_addTagStale_of_mem _ _ _ _ (inv x hx t ht)
  · rcases List.mem_cons.mp he2 with rfl | hx
    · exact hmemtag t ht
    · exact mem_foldl_addTagStale_of_mem _ _ _ _ (inv e2 hx t ht)

/-- Adding a tag preserves the referential-consistency invariant. -/
lemma tagInvariant_addTag (s : AppState) (t : String) (inv : TagInvariant s) :
    TagInvariant { s with tags := handleAddTag s.tags t } := by
  intro e he u hu
  exact mem_handleAddTag _ _ _ (inv e he u hu)

/-- Renaming a tag preserves the referential-consistency invariant, whatever
the raw old and new names are. -/
lemma tagInvariant_renameTag (s : AppState) (oldTag newTag : String)
    (inv : TagInvariant s) : TagInvariant (handleRenameTag s oldTag newTag) := by
  by_cases hguard : oldTag = "" ∨ newTag = "" ∨ oldTag = newTag
  · have h0 : handleRenameTag s oldTag newTag = s := by
      unfold handleRenameTag
      rw [if_pos hguard]
    rw [h0]
    exact inv
  · by_cases hmerge : jsTrim newTag ∈ s.tags
    · have hstate : handleRenameTag s oldTag newTag =
          { s with
            tags := s.tags.filter (fun t => t ≠ oldTag),
            entries := s.entries.map (fun e =>
              if e.tags.contains oldTag then
                if e.tags.contains (jsTrim newTag) then
                  { e with tags := e.tags.filter (fun t => t ≠ oldTag) }
                else
                  { e with tags := e.tags.map (fun t => if t = oldTag then jsTrim newTag else t) }
              else e) } := by
        unfold handleRenameTag
        rw [if_neg hguard]
        simp only []
        rw [if_pos (by simp [hmerge])]
      rw [hstate]
      intro e2 he2 t ht
      rw [List.mem_map] at he2
      obtain ⟨x, hx, hxe⟩ := he2
      subst hxe
      by_cases h1 : oldTag ∈ x.tags
      · by_cases h2 : jsTrim newTag ∈ x.tags
        · have hfe : (if x.tags.contains oldTag then
              if x.tags.contains (jsTrim newTag) then
                { x with tags := x.tags.filter (fun t => t ≠ oldTag) }
              else
                { x with tags := x.tags.map (fun t => if t = oldTag then jsTrim newTag else t) }
            else x) = { x with tags := x.tags.filter (fun t => t ≠ oldTag) } := by
            simp [h1, h2]
          simp only [hfe] at ht
          rw [List.mem_filter] at ht
          simp at ht
          rw [List.mem_filter]
          simp
          exact ⟨inv x hx t ht.1, ht.2⟩
        · have hnto : jsTrim newTag ≠ oldTag := by
            intro hcon
            exact h2 (hcon ▸ h1)
          have hfe : (if x.tags.contains oldTag then
              if x.tags.contains (jsTrim newTag) then
                { x with tags := x.tags.filter (fun t => t ≠ oldTag) }
              else
                { x with tags := x.tags.map (fun t => if t = oldTag then jsTrim newTag else t) }
            else x) = { x with
              tags := x.tags.map (fun t => if t = oldTag then jsTrim newTag else t) } := by
            simp [h1, h2]
          simp only [hfe] at ht
          rw [List.mem_filter]
          simp
          rcases mem_of_mem_map_replace ht with rfl | hin
          · exact ⟨hmerge, hnto⟩
          · by_cases hto : t = oldTag
            · rw [hto] at ht
              exact absurd ht (not_mem_map_replace (fun hcon => hnto hcon.symm))
            · exact ⟨inv x hx t hin, hto⟩
      · have hfe : (if x.tags.contains oldTag then
            if x.tags.contains (jsTrim newTag) then
              { x with tags := x.tags.filter (fun t => t ≠ oldTag) }
            else
              { x with tags := x.tags.map (fun t => if t = oldTag then jsTrim newTag else t) }
          else x) = x := by
          simp [h1]
        simp only [hfe] at ht
        rw [List.mem_filter]
        simp
        refine ⟨inv x hx t ht, ?_⟩
        intro hcon
        exact h1 (hcon ▸ ht)
    · have hstate : handleRenameTag s oldTag newTag =
          { s with
            tags := s.tags.map (fun t => if t = oldTag then jsTrim newTag else t),
            entries := s.entries.map (fun e =>
              if e.tags.contains oldTag then
                if e.tags.contains (jsTrim newTag) then
                  { e with tags := e.tags.filter (fun t => t ≠ oldTag) }
                else
                  { e with tags := e.tags.map (fun t => if t = oldTag then jsTrim newTag else t) }
              else e) } := by
        unfold handleRenameTag
        rw [if_neg hguard]
        simp only []
        rw [if_neg (by simp [hmerge])]
      rw [hstate]
      intro e2 he2 t ht
      rw [List.mem_map] at he2
      obtain ⟨x, hx, hxe⟩ := he2
      subst hxe
      by_cases h1 : oldTag ∈ x.tags
      · by_cases h2 : jsTrim newTag ∈ x.tags
        · exact absurd (inv x hx _ h2) hmerge
        · have hfe : (if x.tags.contains oldTag then
              if x.tags.contains (jsTrim newTag) then
                { x with tags := x.tags.filter (fun t => t ≠ oldTag) }
              else
                { x with tags := x.tags.map (fun t => if t = oldTag then jsTrim newTag else t) }
            else x) = { x with
              tags := x.tags.map (fun t => if t = oldTag then jsTrim newTag else t) } := by
            simp [h1, h2]
          simp only [hfe] at ht
          have hnto : jsTrim newTag ≠ oldTag := by
            intro hcon
            exact hmerge (hcon ▸ inv x hx oldTag h1)
          rcases mem_of_mem_map_replace ht with rfl | hin
          · exact mem_map_replace_self (inv x hx oldTag h1)
          · by_cases hto : t = oldTag
            · rw [hto] at ht
              exact absurd ht (not_mem_map_replace (fun hcon => hnto hcon.symm))
            · exact mem_map_replace_of_mem_ne (inv x hx t hin) hto
      · have hfe : (if x.tags.contains oldTag then
            if x.tags.contains (jsTrim newTag) then
              { x with tags := x.tags.filter (fun t => t ≠ oldTag) }
            else
              { x with tags := x.tags.map (fun t => if t = oldTag then jsTrim newTag else t) }
          else x) = x := by
          simp [h1]
        simp only [hfe] at ht
        refine mem_map_replace_of_mem_ne (inv x hx t ht) ?_
        intro hcon
        exact h1 (hcon ▸ ht)

/-- Deleting a tag in either mode preserves the referential-consistency
invariant. -/
lemma tagInvariant_deleteTag (s : AppState) (t : String) (mode : DeleteTagMode)
    (inv : TagInvariant s) : TagInvariant (confirmDeleteTag s t mode) := by
  by_cases hempty : t = ""
  · have h0 : confirmDeleteTag s t mode = s := by
      unfold confirmDeleteTag
      rw [if_pos hempty]
    rw [h0]
    exact inv
  · cases mode with
    | tag_only =>
      have hstate : confirmDeleteTag s t DeleteTagMode.tag_only =
          { entries := s.entries.map
              (fun e => { e with tags := e.tags.filter (fun u => u ≠ t) }),
            tags := s.tags.filter (fun u => u ≠ t),
            activeCategory := if s.activeCategory = t then "全部"
                              else s.activeCategory } := by
        unfold confirmDeleteTag handleDeleteTag
        rw [if_neg hempty]
      rw [hstate]
      intro e2 he2 u hu
      rw [List.mem_map] at he2
      obtain ⟨x, hx, hxe⟩ := he2
      subst hxe
      simp only [List.mem_filter, decide_eq_true_eq] at hu
      rw [List.mem_filter]
      simp
      exact ⟨inv x hx u hu.1, hu.2⟩
    | tag_all =>
      have hstate : confirmDeleteTag s t DeleteTagMode.tag_all =
          { entries := s.entries.filter (fun e => ¬ e.tags.contains t),
            tags := s.tags.filter (fun u => u ≠ t),
            activeCategory := if s.activeCategory = t then "全部"
                              else s.activeCategory } := by
        unfold confirmDeleteTag handleDeleteTag
        rw [if_neg hempty]
      rw [hstate]
      intro e2 he2 u hu
      rw [List.mem_filter] at he2
      simp at he2
      rw [List.mem_filter]
      simp
      refine ⟨inv e2 he2.1 u hu, ?_⟩
      intro hcon
      exact he2.2 (hcon ▸ hu)

/-- The initial state satisfies the referential-consistency invariant. -/
lemma tagInvariant_init : TagInvariant initialState := by decide

/-- C1: after any sequence of public operations (save entry with the
authoring-form tag guarantee, add tag, rename tag, delete tag in either
mode) starting from the initial state, every tag of every entry is present
in the tag registry order. -/
theorem C1_referential_consistency (s : AppState) (h : Reachable s) :
    TagInvariant s := by
  induction h with
  | init => exact tagInvariant_init
  | step hr hstep ih =>
    cases hstep with
    | saveEntry e hguar => exact tagInvariant_saveEntry _ e hguar ih
    | addTag t => exact tagInvariant_addTag _ t ih
    | renameTag o n => exact tagInvariant_renameTag _ o n ih
    | deleteTag t mode => exact tagInvariant_deleteTag _ t mode ih

/-- C1 witness: the state obtained by saving a new entry carrying one
registered tag and one new trimmed tag still satisfies the invariant. -/
theorem C1_witness : TagInvariant (handleSaveEntry initialState wEntry) :=
  C1_referential_consistency _
    (Reachable.step Reachable.init
      (Step.saveEntry initialState wEntry (by decide)))

end Gourmet
